import Mathlib

/-!
Verification development for the dextro indexing library.

Byte strings are modelled as `List Nat` (one `Nat` per byte).  File systems
are association lists from filename to file content.  The scanning loops of
`dextro/loaders.py`, the enrichment pipeline of `dextro/indexing.py` and the
random-access reader of `dextro/torch.py` are embedded as executable Lean
functions; cursor-advancing `while` loops become fuel-based recursions whose
fuel is, in every wrapper, large enough to be irrelevant.
-/

namespace Dextro

/-- ASCII whitespace accepted by Python's `bytes.strip()`:
`b' \t\n\r\x0b\x0c'`. -/
def isspace (b : Nat) : Bool :=
  b == 9 || b == 10 || b == 11 || b == 12 || b == 13 || b == 32

/-- The bytes returned by `fp.readline()` from the current cursor: everything
up to and including the first newline byte (10), or to end of input. -/
def takeLine : List Nat → List Nat
  | [] => []
  | b :: rest => if b == 10 then [10] else b :: takeLine rest

/-- `bytes.lstrip()`. -/
def stripLeft (l : List Nat) : List Nat := l.dropWhile isspace

/-- `bytes.rstrip()`. -/
def stripRight (l : List Nat) : List Nat := (stripLeft l.reverse).reverse

/-- `bytes.strip()`. -/
def strip (l : List Nat) : List Nat := stripRight (stripLeft l)

/-- `dextro.types.ItemMeta` (the `RecordLocation` plus enrichment info);
`additional_info` values live in an arbitrary type `μ`. -/
structure ItemMeta (μ : Type) where
  start : Nat
  end_ : Nat
  filename : String
  additional_info : List (String × μ)
deriving DecidableEq

/-- `dextro.types.FileItem`: metadata plus the decoded record (type `α`). -/
structure FileItem (α μ : Type) where
  meta : ItemMeta μ
  data : α
deriving DecidableEq

/-- The flattened dictionary produced by `ItemMeta.as_dict`: the row persisted
into the index table. -/
structure Row (μ : Type) where
  start : Nat
  end_ : Nat
  filename : String
  info : List (String × μ)
deriving DecidableEq

/-- `ItemMeta.as_dict`: flatten to a row, prefixing enrichment keys with
`"meta_"`. -/
def ItemMeta.as_dict {μ : Type} (m : ItemMeta μ) : Row μ :=
  ⟨m.start, m.end_, m.filename, m.additional_info.map fun kv => ("meta_" ++ kv.1, kv.2)⟩

/-- The loader interface of `dextro.loaders.BaseLoader`: `load_item` decodes
the bytes of one record, `iter_file_items` scans a whole file. -/
structure Loader (α μ : Type) where
  load_item : List Nat → α
  iter_file_items : List Nat → String → List (FileItem α μ)

/-- The raw bytes `fp.readline()` returns with the cursor at `pos`: the rest
of the current line including its newline byte, or up to end of file. -/
def rawLineAt (file : List Nat) (pos : Nat) : List Nat :=
  takeLine (file.drop pos)

/-- `fp.readline().strip()` with the cursor at `pos`. -/
def lineAt (file : List Nat) (pos : Nat) : List Nat :=
  strip (rawLineAt file pos)

/-- The scanning loop of `JSONLinesLoader.iter_file_items`: at cursor `pos`,
read a line, strip it, stop if the stripped line is empty, otherwise emit the
item with `start = pos`, `end = pos + len(stripped)` and advance the cursor
past the raw line. -/
def JSONLinesLoader.iterGo {α μ : Type} (load_item : List Nat → α) (file : List Nat)
    (nm : String) : Nat → Nat → List (FileItem α μ)
  | _, 0 => []
  | pos, fuel + 1 =>
    if lineAt file pos = [] then []
    else
      { meta := { start := pos, end_ := pos + (lineAt file pos).length, filename := nm,
                  additional_info := [] },
        data := load_item (lineAt file pos) }
        :: JSONLinesLoader.iterGo load_item file nm (pos + (rawLineAt file pos).length) fuel

/-- `JSONLinesLoader.iter_file_items`. -/
def JSONLinesLoader.iter_file_items {α μ : Type} (load_item : List Nat → α)
    (file : List Nat) (nm : String) : List (FileItem α μ) :=
  JSONLinesLoader.iterGo load_item file nm 0 (file.length + 1)

/-- `JSONLinesLoader` as a `Loader` (its `load_item` is `json.loads`, treated
as an abstract decoder). -/
def JSONLinesLoader {α μ : Type} (load_item : List Nat → α) : Loader α μ :=
  ⟨load_item, JSONLinesLoader.iter_file_items load_item⟩

/-- One record of `CSVLoader`: field names zipped with field values (the
`dict(zip(names, row, strict=True))` of the source). -/
def CsvRecord : Type := List (List Nat × List Nat)

/-- The scanning loop of `CSVLoader.iter_file_items`.  `parseRow` stands for
`CSVLoader.load_item` (the `csv.reader` split of one decoded line, an external
collaborator).  State mirrors the Python locals: the cursor `pos`, the running
`names` (None until a header or first row fixes them) and `line_idx` (which
the source never increments).  The `assert len(names) == len(row)` aborts the
generator: the recursion returns, keeping the items already emitted. -/
def CSVLoader.iterGo {μ : Type} (parseRow : List Nat → List (List Nat))
    (header : Option Nat) (file : List Nat) (nm : String) :
    Option (List (List Nat)) → Nat → Nat → Nat → List (FileItem CsvRecord μ)
  | _, _, _, 0 => []
  | names, line_idx, pos, fuel + 1 =>
    if lineAt file pos = [] then []
    else
      match names with
      | none =>
        if h : header.isSome then
          if line_idx < header.get h then
            CSVLoader.iterGo parseRow header file nm none line_idx
              (pos + (rawLineAt file pos).length) fuel
          else
            CSVLoader.iterGo parseRow header file nm (some (parseRow (lineAt file pos))) line_idx
              (pos + (rawLineAt file pos).length) fuel
        else
          let row := parseRow (lineAt file pos)
          let names' := (List.range row.length).map fun i =>
            ("col_" ++ toString i).toList.map Char.toNat
          { meta := { start := pos, end_ := pos + (lineAt file pos).length, filename := nm,
                      additional_info := [] },
            data := names'.zip row }
            :: CSVLoader.iterGo parseRow header file nm (some names') line_idx
                (pos + (rawLineAt file pos).length) fuel
      | some ns =>
        let row := parseRow (lineAt file pos)
        if ns.length = row.length then
          { meta := { start := pos, end_ := pos + (lineAt file pos).length, filename := nm,
                      additional_info := [] },
            data := ns.zip row }
            :: CSVLoader.iterGo parseRow header file nm (some ns) line_idx
                (pos + (rawLineAt file pos).length) fuel
        else []

/-- `CSVLoader.iter_file_items`, started from the constructor state
(`names = self.names`, `line_idx = 0`, cursor at 0). -/
def CSVLoader.iter_file_items {μ : Type} (parseRow : List Nat → List (List Nat))
    (header : Option Nat) (names : Option (List (List Nat)))
    (file : List Nat) (nm : String) : List (FileItem CsvRecord μ) :=
  CSVLoader.iterGo parseRow header file nm names 0 0 (file.length + 1)

/-! ## The enrichment pipeline (`dextro/indexing.py`, `FileIndexer`) -/

/-- A per-item enricher (`BaseEnricher.enrich_item`): keep (possibly
annotated) or drop. -/
def ItemEnricher (α μ : Type) : Type := FileItem α μ → Option (FileItem α μ)

/-- A batched enricher (`BaseBatchedEnricher.enrich_batch`): one output slot
per input item, each kept or dropped. -/
def BatchedEnricher (α μ : Type) : Type :=
  List (FileItem α μ) → List (Option (FileItem α μ))

/-- `FileIndexer._enrich_item`: apply per-item enrichers in order, stopping at
the first that drops the item. -/
def FileIndexer.enrich_item {α μ : Type} :
    List (ItemEnricher α μ) → FileItem α μ → Option (FileItem α μ)
  | [], item => some item
  | e :: rest, item =>
    match e item with
    | none => none
    | some it => FileIndexer.enrich_item rest it

/-- `FileIndexer._enrich_batch`: apply batched enrichers in order, discarding
dropped slots after each stage and stopping early when the batch empties. -/
def FileIndexer.enrich_batch {α μ : Type} :
    List (BatchedEnricher α μ) → List (FileItem α μ) → List (FileItem α μ)
  | [], batch => batch
  | e :: rest, batch =>
    let b := (e batch).filterMap id
    if b.isEmpty then [] else FileIndexer.enrich_batch rest b

/-- `FileIndexer._finish_batch`: flatten every surviving item's metadata into
a row. -/
def FileIndexer.finish_batch {α μ : Type} (batch : List (FileItem α μ)) : List (Row μ) :=
  batch.map fun item => item.meta.as_dict

/-- The loop body of `FileIndexer.__call__`: per-item enrichment with drops,
a batch buffer flushed through the batched enrichers whenever it reaches
`batch_size`, and a final flush of a non-empty remainder. -/
def FileIndexer.callGo {α μ : Type} (es : List (ItemEnricher α μ))
    (bes : List (BatchedEnricher α μ)) (batch_size : Nat)
    (batch : List (FileItem α μ)) : List (FileItem α μ) → List (Row μ)
  | [] => if batch.isEmpty then [] else FileIndexer.finish_batch (FileIndexer.enrich_batch bes batch)
  | item :: rest =>
    match FileIndexer.enrich_item es item with
    | none => FileIndexer.callGo es bes batch_size batch rest
    | some it =>
      let batch' := batch ++ [it]
      if batch_size ≤ batch'.length then
        FileIndexer.finish_batch (FileIndexer.enrich_batch bes batch')
          ++ FileIndexer.callGo es bes batch_size [] rest
      else FileIndexer.callGo es bes batch_size batch' rest

/-- `FileIndexer.__call__` on one file. -/
def FileIndexer.call {α μ : Type} (loader : Loader α μ) (es : List (ItemEnricher α μ))
    (bes : List (BatchedEnricher α μ)) (batch_size : Nat)
    (file : List Nat) (nm : String) : List (Row μ) :=
  FileIndexer.callGo es bes batch_size [] (loader.iter_file_items file nm)

/-! ## Directory indexing (`DirectoryIndexer`, `index_dataset`) -/

/-- Shell-style glob matching of a pattern against a filename, with `*`
matching any (possibly empty) run of characters — the fragment of
`pathlib.Path.glob` semantics exercised for names directly under the root. -/
def globMatchGo : Nat → List Char → List Char → Bool
  | 0, p, s => p.isEmpty && s.isEmpty
  | _ + 1, [], s => s.isEmpty
  | fuel + 1, '*' :: ps, [] => globMatchGo fuel ps []
  | fuel + 1, '*' :: ps, c :: s =>
    globMatchGo fuel ps (c :: s) || globMatchGo fuel ('*' :: ps) s
  | _ + 1, _ :: _, [] => false
  | fuel + 1, p :: ps, c :: s => p == c && globMatchGo fuel ps s

/-- Whether glob pattern `pat` matches filename `nm`. -/
def globMatch (pat nm : String) : Bool :=
  globMatchGo (pat.length + nm.length + 1) pat.toList nm.toList

/-- A directory: an association list from filename to file bytes. -/
def FileSystem : Type := List (String × List Nat)

/-- The filenames of a directory. -/
def FileSystem.names (fs : FileSystem) : List String := fs.map Prod.fst

/-- The content of a named file (empty if absent). -/
def FileSystem.content (fs : FileSystem) (nm : String) : List Nat :=
  ((fs.find? fun p => p.1 == nm).map Prod.snd).getD []

/-- The path-collection expression of `DirectoryIndexer.__call__`:
`sorted(path for pattern in self.glob for path in dataset_root.glob(pattern))`.
Matches of every pattern are concatenated — without deduplication — and the
combined list is sorted (Python's `sorted` is a stable sort, modelled by
insertion sort). -/
def DirectoryIndexer.collectPaths (globs : List String) (names : List String) : List String :=
  List.insertionSort (· ≤ ·) (globs.flatMap fun pat => names.filter fun nm => globMatch pat nm)

/-- `DirectoryIndexer.__call__` in sequential mode (`num_workers = None`):
raise when no file matches, otherwise drain each file's indexer in path
order. -/
def DirectoryIndexer.call {α μ : Type} (loader : Loader α μ)
    (es : List (ItemEnricher α μ)) (bes : List (BatchedEnricher α μ))
    (batch_size : Nat) (globs : List String) (fs : FileSystem) :
    Except String (List (Row μ)) :=
  let paths := DirectoryIndexer.collectPaths globs fs.names
  if paths = [] then
    .error "No files found matching glob patterns"
  else
    .ok (paths.flatMap fun nm =>
      FileIndexer.call loader es bes batch_size (fs.content nm) nm)

/-- `index_dataset`: run the directory indexer and truncate with
`islice(records, max_iter)` — but only under `if max_iter:`, so both `None`
and `0` leave the record stream untouched. -/
def index_dataset {α μ : Type} (loader : Loader α μ)
    (es : List (ItemEnricher α μ)) (bes : List (BatchedEnricher α μ))
    (batch_size : Nat) (globs : List String) (max_iter : Option Nat)
    (fs : FileSystem) : Except String (List (Row μ)) :=
  match DirectoryIndexer.call loader es bes batch_size globs fs with
  | .error e => .error e
  | .ok records =>
    .ok (match max_iter with
      | none => records
      | some k => if k = 0 then records else records.take k)

/-! ## The random-access reader (`dextro/torch.py`, `IndexedDataset`) -/

/-- Python slicing `l[start:stop]` for non-negative bounds (as used on the
memory map in `IndexedDataset.__getitem__`). -/
def pySlice (l : List Nat) (start stop : Nat) : List Nat :=
  (l.drop start).take (stop - start)

/-- `IndexedDataset.__getitem__` of `dextro/torch.py`: resolve the row,
slice that row's memory map to `[start, end)` and decode with the loader;
`none` models the out-of-range `IndexError`.  `mem_maps` sends each filename
to the mapped bytes of that file. -/
def IndexedDataset.getitem {α μ : Type} (loader : Loader α μ) (index : List (Row μ))
    (mem_maps : String → List Nat) (idx : Nat) : Option α :=
  (index[idx]?).map fun r => loader.load_item (pySlice (mem_maps r.filename) r.start r.end_)

/-! ## Statement vocabulary -/

/-- Split a list into consecutive chunks of size `n` (the last one possibly
shorter); used to describe the batch boundaries of `FileIndexer.__call__`. -/
def chunksGo {X : Type} (n : Nat) : Nat → List X → List (List X)
  | _, [] => []
  | 0, l => [l]
  | fuel + 1, l => l.take n :: chunksGo n fuel (l.drop n)

/-- Chunks of size `n` of a list. -/
def chunks {X : Type} (n : Nat) (l : List X) : List (List X) :=
  chunksGo n l.length l

/-- Rebuild one partition file from newline-free record lines, each
terminated by a newline byte. -/
def mkFile (lines : List (List Nat)) : List Nat :=
  lines.flatMap fun l => l ++ [10]

/-! ## Lemmas about lines and stripping -/

theorem takeLine_nil : takeLine [] = [] := rfl

theorem takeLine_isPrefixOf (l : List Nat) : takeLine l <+: l := by
  induction l with
  | nil => exact List.prefix_refl _
  | cons b rest ih =>
    simp only [takeLine]
    by_cases hb : b == 10
    · have hb' : b = 10 := by simpa using hb
      subst hb'
      refine ⟨rest, ?_⟩
      simp
    · simp only [hb, if_false]
      exact (List.prefix_cons_inj b).mpr ih

theorem takeLine_eq_nil_iff {l : List Nat} : takeLine l = [] ↔ l = [] := by
  cases l with
  | nil => simp [takeLine]
  | cons b rest =>
    simp only [takeLine]
    by_cases hb : b == 10 <;> simp [hb]

theorem stripLeft_nil : stripLeft [] = [] := rfl

theorem stripLeft_eq (l : List Nat) : stripLeft l = List.dropWhile isspace l := rfl

theorem stripRight_nil : stripRight [] = [] := rfl

theorem strip_nil : strip [] = [] := rfl

theorem stripRight_isPrefixOf (l : List Nat) : stripRight l <+: l := by
  obtain ⟨t, ht⟩ := List.dropWhile_suffix (l := l.reverse) isspace
  refine ⟨t.reverse, ?_⟩
  have h2 : (t ++ List.dropWhile isspace l.reverse).reverse = l.reverse.reverse := by rw [ht]
  simpa [stripRight, stripLeft_eq, List.reverse_append] using h2

theorem stripLeft_length_le (l : List Nat) : (stripLeft l).length ≤ l.length :=
  (List.dropWhile_suffix isspace).length_le

theorem stripRight_length_le (l : List Nat) : (stripRight l).length ≤ l.length :=
  (stripRight_isPrefixOf l).length_le

theorem strip_length_le (l : List Nat) : (strip l).length ≤ l.length :=
  le_trans (stripRight_length_le _) (stripLeft_length_le _)

theorem mem_stripLeft {a : Nat} {l : List Nat} (h : a ∈ stripLeft l) : a ∈ l :=
  (List.dropWhile_suffix isspace).subset h

theorem mem_stripRight {a : Nat} {l : List Nat} (h : a ∈ stripRight l) : a ∈ l :=
  (stripRight_isPrefixOf l).subset h

theorem mem_strip {a : Nat} {l : List Nat} (h : a ∈ strip l) : a ∈ l :=
  mem_stripLeft (mem_stripRight h)

/-- Appending a trailing whitespace byte does not change `rstrip`. -/
theorem stripRight_append_ws {b : Nat} (hb : isspace b = true) (l : List Nat) :
    stripRight (l ++ [b]) = stripRight l := by
  simp [stripRight, stripLeft, List.reverse_append, List.dropWhile_cons, hb]

/-- Appending a trailing whitespace byte does not change `strip`. -/
theorem strip_append_ws {b : Nat} (hb : isspace b = true) (l : List Nat) :
    strip (l ++ [b]) = strip l := by
  unfold strip
  rcases hsl : stripLeft l with _ | ⟨c, cs⟩
  · have h1 : stripLeft (l ++ [b]) = [] := by
      rw [stripLeft_eq] at hsl ⊢
      rw [List.dropWhile_append, hsl]
      simp [List.dropWhile_cons, hb]
    rw [h1]
  · have h1 : stripLeft (l ++ [b]) = (c :: cs) ++ [b] := by
      rw [stripLeft_eq] at hsl ⊢
      rw [List.dropWhile_append, hsl]
      simp
    rw [h1, stripRight_append_ws hb]

/-- `strip` removes leading whitespace first, so when there is none it is
`rstrip`. -/
theorem strip_of_stripLeft_eq {l : List Nat} (h : stripLeft l = l) :
    strip l = stripRight l := by
  rw [strip, h]

/-- The raw line either contains no newline at all or is a newline-free body
followed by exactly one newline byte. -/
theorem takeLine_cases (l : List Nat) :
    (10 ∉ takeLine l) ∨ (∃ c, takeLine l = c ++ [10] ∧ 10 ∉ c) := by
  induction l with
  | nil => left; simp [takeLine]
  | cons b rest ih =>
    by_cases hb : b = 10
    · subst hb
      right
      refine ⟨[], ?_, by simp⟩
      simp [takeLine]
    · have hb' : (b == 10) = false := by simpa using hb
      have ht : takeLine (b :: rest) = b :: takeLine rest := by
        simp [takeLine, hb']
      rw [ht]
      rcases ih with h | ⟨c, hc, hcn⟩
      · left
        simp only [List.mem_cons, not_or]
        exact ⟨fun hh => hb hh.symm, h⟩
      · right
        refine ⟨b :: c, ?_, ?_⟩
        · rw [hc]
          rfl
        · simp only [List.mem_cons, not_or]
          exact ⟨fun hh => hb hh.symm, hcn⟩

/-- The newline byte never survives into a stripped line. -/
theorem ten_not_mem_strip_takeLine (l : List Nat) : 10 ∉ strip (takeLine l) := by
  rcases takeLine_cases l with h | ⟨c, hc, hcn⟩
  · exact fun hm => h (mem_strip hm)
  · rw [hc, strip_append_ws (by decide)]
    exact fun hm => hcn (mem_strip hm)

/-- Reading a line from a newline-terminated record returns exactly that
record plus its delimiter. -/
theorem takeLine_append_newline {l : List Nat} (h : 10 ∉ l) (rest : List Nat) :
    takeLine (l ++ 10 :: rest) = l ++ [10] := by
  induction l with
  | nil => simp [takeLine]
  | cons b bs ih =>
    have hb : b ≠ 10 := fun hb => h (hb ▸ List.mem_cons_self b bs)
    have hbs : 10 ∉ bs := fun hm => h (List.mem_cons_of_mem b hm)
    simp only [List.cons_append, takeLine, beq_iff_eq, hb, if_false, List.append_eq]
    rw [ih hbs]

/-! ## Lemmas about the JSON-lines scan -/

theorem lineAt_ne_nil_lt {file : List Nat} {pos : Nat} (h : lineAt file pos ≠ []) :
    pos < file.length := by
  by_contra hle
  have hdrop : file.drop pos = [] := List.drop_eq_nil_iff.mpr (by omega)
  apply h
  simp [lineAt, rawLineAt, hdrop, takeLine_nil, strip_nil]

theorem lineAt_length_le (file : List Nat) (pos : Nat) :
    (lineAt file pos).length ≤ (rawLineAt file pos).length :=
  strip_length_le _

theorem rawLineAt_length_le (file : List Nat) (pos : Nat) :
    (rawLineAt file pos).length ≤ file.length - pos := by
  have h := (takeLine_isPrefixOf (file.drop pos)).length_le
  simpa [rawLineAt, List.length_drop] using h

/-- Every item emitted by the JSON-lines scanning loop from cursor `pos`
starts at or after `pos`, spans `[start, start + len(stripped line))` inside
the file, and carries the decoded stripped line with no enrichment info. -/
theorem JSONLinesLoader.iterGo_mem {α μ : Type} (lo : List Nat → α) (file : List Nat)
    (nm : String) :
    ∀ fuel pos : Nat, ∀ it ∈ JSONLinesLoader.iterGo (μ := μ) lo file nm pos fuel,
      pos ≤ it.meta.start ∧
      it.meta.end_ = it.meta.start + (lineAt file it.meta.start).length ∧
      it.meta.end_ ≤ file.length ∧
      it.data = lo (lineAt file it.meta.start) ∧
      it.meta.filename = nm ∧ it.meta.additional_info = [] := by
  intro fuel
  induction fuel with
  | zero => intro pos it hit; simp [JSONLinesLoader.iterGo] at hit
  | succ fuel ih =>
    intro pos it hit
    by_cases hline : lineAt file pos = []
    · simp [JSONLinesLoader.iterGo, hline] at hit
    · simp only [JSONLinesLoader.iterGo, if_neg hline] at hit
      have hpos := lineAt_ne_nil_lt hline
      have h1 := lineAt_length_le file pos
      have h2 := rawLineAt_length_le file pos
      rcases List.mem_cons.mp hit with heq | htail
      · subst heq
        refine ⟨le_refl _, rfl, ?_, rfl, rfl, rfl⟩
        show pos + (lineAt file pos).length ≤ file.length
        omega
      · obtain ⟨ha, hb, hc, hd, he, hf⟩ := ih (pos + (rawLineAt file pos).length) it htail
        exact ⟨by omega, hb, hc, hd, he, hf⟩

/-- Consecutive items emitted by the JSON-lines scanning loop do not
overlap. -/
theorem JSONLinesLoader.iterGo_pairwise {α μ : Type} (lo : List Nat → α) (file : List Nat)
    (nm : String) :
    ∀ fuel pos : Nat,
      List.Pairwise (fun a b : FileItem α μ => a.meta.end_ ≤ b.meta.start)
        (JSONLinesLoader.iterGo lo file nm pos fuel) := by
  intro fuel
  induction fuel with
  | zero => intro pos; simp [JSONLinesLoader.iterGo]
  | succ fuel ih =>
    intro pos
    by_cases hline : lineAt file pos = []
    · simp [JSONLinesLoader.iterGo, hline]
    · simp only [JSONLinesLoader.iterGo, if_neg hline]
      refine List.pairwise_cons.mpr ⟨?_, ih _⟩
      intro b hb
      have hmem := (JSONLinesLoader.iterGo_mem lo file nm fuel
        (pos + (rawLineAt file pos).length) b hb).1
      have h1 := lineAt_length_le file pos
      show pos + (lineAt file pos).length ≤ b.meta.start
      omega

/-- The spans emitted by the JSON-lines scanning loop from cursor `pos` fit,
in total, into the remainder of the file. -/
theorem JSONLinesLoader.iterGo_sum {α μ : Type} (lo : List Nat → α) (file : List Nat)
    (nm : String) :
    ∀ fuel pos : Nat, pos ≤ file.length →
      pos + (((JSONLinesLoader.iterGo (μ := μ) lo file nm pos fuel).map
        fun it => it.meta.end_ - it.meta.start).sum) ≤ file.length := by
  intro fuel
  induction fuel with
  | zero => intro pos hpos; simp [JSONLinesLoader.iterGo]; omega
  | succ fuel ih =>
    intro pos hpos
    by_cases hline : lineAt file pos = []
    · simp [JSONLinesLoader.iterGo, hline]; omega
    · simp only [JSONLinesLoader.iterGo, if_neg hline, List.map_cons, List.sum_cons]
      have hlt := lineAt_ne_nil_lt hline
      have h1 := lineAt_length_le file pos
      have h2 := rawLineAt_length_le file pos
      have h3 := ih (pos + (rawLineAt file pos).length) (by omega)
      show pos + ((pos + (lineAt file pos).length - pos) + _) ≤ file.length
      omega

/-! ## Lemmas about the CSV scan -/

/-- Every item emitted by the CSV scanning loop from cursor `pos` starts at or
after `pos` and spans `[start, start + len(stripped line))` inside the
file. -/
theorem CSVLoader.csvIterGo_mem {μ : Type} (pr : List Nat → List (List Nat))
    (header : Option Nat) (file : List Nat) (nm : String) :
    ∀ fuel (names : Option (List (List Nat))) (line_idx pos : Nat),
      ∀ it ∈ CSVLoader.iterGo (μ := μ) pr header file nm names line_idx pos fuel,
        pos ≤ it.meta.start ∧
        it.meta.end_ = it.meta.start + (lineAt file it.meta.start).length ∧
        it.meta.end_ ≤ file.length := by
  intro fuel
  induction fuel with
  | zero => intro names line_idx pos it hit; simp [CSVLoader.iterGo] at hit
  | succ fuel ih =>
    intro names line_idx pos it hit
    by_cases hline : lineAt file pos = []
    · simp [CSVLoader.iterGo, hline] at hit
    · have hpos := lineAt_ne_nil_lt hline
      have h1 := lineAt_length_le file pos
      have h2 := rawLineAt_length_le file pos
      simp only [CSVLoader.iterGo, if_neg hline] at hit
      split at hit
      · split at hit
        · split at hit
          · obtain ⟨ha, hb, hc⟩ := ih _ _ _ it hit
            exact ⟨by omega, hb, hc⟩
          · obtain ⟨ha, hb, hc⟩ := ih _ _ _ it hit
            exact ⟨by omega, hb, hc⟩
        · rcases List.mem_cons.mp hit with heq | htail
          · subst heq
            refine ⟨le_refl _, rfl, ?_⟩
            show pos + (lineAt file pos).length ≤ file.length
            omega
          · obtain ⟨ha, hb, hc⟩ := ih _ _ _ it htail
            exact ⟨by omega, hb, hc⟩
      · split at hit
        · rcases List.mem_cons.mp hit with heq | htail
          · subst heq
            refine ⟨le_refl _, rfl, ?_⟩
            show pos + (lineAt file pos).length ≤ file.length
            omega
          · obtain ⟨ha, hb, hc⟩ := ih _ _ _ it htail
            exact ⟨by omega, hb, hc⟩
        · simp at hit

/-- Consecutive items emitted by the CSV scanning loop do not overlap. -/
theorem CSVLoader.csvIterGo_pairwise {μ : Type} (pr : List Nat → List (List Nat))
    (header : Option Nat) (file : List Nat) (nm : String) :
    ∀ fuel (names : Option (List (List Nat))) (line_idx pos : Nat),
      List.Pairwise (fun a b : FileItem CsvRecord μ => a.meta.end_ ≤ b.meta.start)
        (CSVLoader.iterGo pr header file nm names line_idx pos fuel) := by
  intro fuel
  induction fuel with
  | zero => intro names line_idx pos; simp [CSVLoader.iterGo]
  | succ fuel ih =>
    intro names line_idx pos
    by_cases hline : lineAt file pos = []
    · simp [CSVLoader.iterGo, hline]
    · have h1 := lineAt_length_le file pos
      simp only [CSVLoader.iterGo, if_neg hline]
      split
      · split
        · split
          · exact ih _ _ _
          · exact ih _ _ _
        · refine List.pairwise_cons.mpr ⟨?_, ih _ _ _⟩
          intro b hb
          have hmem := (CSVLoader.csvIterGo_mem pr header file nm fuel _ _
            (pos + (rawLineAt file pos).length) b hb).1
          show pos + (lineAt file pos).length ≤ b.meta.start
          omega
      · split
        · refine List.pairwise_cons.mpr ⟨?_, ih _ _ _⟩
          intro b hb
          have hmem := (CSVLoader.csvIterGo_mem pr header file nm fuel _ _
            (pos + (rawLineAt file pos).length) b hb).1
          show pos + (lineAt file pos).length ≤ b.meta.start
          omega
        · simp

/-- The spans emitted by the CSV scanning loop from cursor `pos` fit, in
total, into the remainder of the file. -/
theorem CSVLoader.csvIterGo_sum {μ : Type} (pr : List Nat → List (List Nat))
    (header : Option Nat) (file : List Nat) (nm : String) :
    ∀ fuel (names : Option (List (List Nat))) (line_idx pos : Nat), pos ≤ file.length →
      pos + (((CSVLoader.iterGo (μ := μ) pr header file nm names line_idx pos fuel).map
        fun it => it.meta.end_ - it.meta.start).sum) ≤ file.length := by
  intro fuel
  induction fuel with
  | zero => intro names line_idx pos hpos; simp [CSVLoader.iterGo]; omega
  | succ fuel ih =>
    intro names line_idx pos hpos
    by_cases hline : lineAt file pos = []
    · simp [CSVLoader.iterGo, hline]; omega
    · have hlt := lineAt_ne_nil_lt hline
      have h1 := lineAt_length_le file pos
      have h2 := rawLineAt_length_le file pos
      simp only [CSVLoader.iterGo, if_neg hline]
      cases names with
      | none =>
        cases header with
        | none =>
          have h4 := ih (some ((List.range (pr (lineAt file pos)).length).map fun i =>
            ("col_" ++ toString i).toList.map Char.toNat)) line_idx
            (pos + (rawLineAt file pos).length) (by omega)
          simp only [Option.isSome_none, Bool.false_eq_true, dite_false, List.map_cons,
            List.sum_cons]
          show pos + ((pos + (lineAt file pos).length - pos) + _) ≤ file.length
          omega
        | some hv =>
          simp only [Option.isSome_some, dite_true, Option.get_some]
          by_cases hidx : line_idx < hv
          · rw [if_pos hidx]
            have h4 := ih none line_idx (pos + (rawLineAt file pos).length) (by omega)
            omega
          · rw [if_neg hidx]
            have h4 := ih (some (pr (lineAt file pos))) line_idx
              (pos + (rawLineAt file pos).length) (by omega)
            omega
      | some ns =>
        by_cases hlen : ns.length = (pr (lineAt file pos)).length
        · simp only [if_pos hlen, List.map_cons, List.sum_cons]
          have h4 := ih (some ns) line_idx (pos + (rawLineAt file pos).length) (by omega)
          show pos + ((pos + (lineAt file pos).length - pos) + _) ≤ file.length
          omega
        · simp only [if_neg hlen, List.map_nil, List.sum_nil]
          omega

/-- The location invariant of claim C2: every span lies inside the file
(`start ≤ end ≤ size`; `0 ≤ start` holds by the ℕ encoding), spans are
mutually non-overlapping in emission order, sorted by `start`, and their
total length is at most the file size. -/
def LocationsOK {μ : Type} (locs : List (ItemMeta μ)) (size : Nat) : Prop :=
  (∀ m ∈ locs, m.start ≤ m.end_ ∧ m.end_ ≤ size) ∧
  List.Pairwise (fun a b : ItemMeta μ => a.end_ ≤ b.start) locs ∧
  List.Pairwise (fun a b : ItemMeta μ => a.start ≤ b.start) locs ∧
  (locs.map fun m => m.end_ - m.start).sum ≤ size

theorem locationsOK_jsonl {α μ : Type} (lo : List Nat → α) (file : List Nat) (nm : String) :
    LocationsOK ((JSONLinesLoader.iter_file_items (μ := μ) lo file nm).map FileItem.meta)
      file.length := by
  refine ⟨?_, ?_, ?_, ?_⟩
  · intro m hm
    obtain ⟨it, hit, rfl⟩ := List.mem_map.mp hm
    obtain ⟨_, h2, h3, _⟩ := JSONLinesLoader.iterGo_mem lo file nm (file.length + 1) 0 it hit
    exact ⟨by omega, h3⟩
  · rw [List.pairwise_map]
    exact JSONLinesLoader.iterGo_pairwise lo file nm (file.length + 1) 0
  · have hp : List.Pairwise (fun a b : FileItem α μ => a.meta.end_ ≤ b.meta.start)
        (JSONLinesLoader.iter_file_items lo file nm) :=
      JSONLinesLoader.iterGo_pairwise lo file nm (file.length + 1) 0
    rw [List.pairwise_map]
    refine hp.imp_of_mem ?_
    intro a b ha hb hr
    have hend := (JSONLinesLoader.iterGo_mem lo file nm (file.length + 1) 0 a ha).2.1
    omega
  · have h := JSONLinesLoader.iterGo_sum (μ := μ) lo file nm (file.length + 1) 0 (by omega)
    simpa [List.map_map, Function.comp] using h

theorem locationsOK_csv {μ : Type} (pr : List Nat → List (List Nat)) (header : Option Nat)
    (names : Option (List (List Nat))) (file : List Nat) (nm : String) :
    LocationsOK ((CSVLoader.iter_file_items (μ := μ) pr header names file nm).map FileItem.meta)
      file.length := by
  refine ⟨?_, ?_, ?_, ?_⟩
  · intro m hm
    obtain ⟨it, hit, rfl⟩ := List.mem_map.mp hm
    obtain ⟨_, h2, h3⟩ := CSVLoader.csvIterGo_mem pr header file nm (file.length + 1) names 0 0 it hit
    exact ⟨by omega, h3⟩
  · rw [List.pairwise_map]
    exact CSVLoader.csvIterGo_pairwise pr header file nm (file.length + 1) names 0 0
  · have hp : List.Pairwise (fun a b : FileItem CsvRecord μ => a.meta.end_ ≤ b.meta.start)
        (CSVLoader.iter_file_items pr header names file nm) :=
      CSVLoader.csvIterGo_pairwise pr header file nm (file.length + 1) names 0 0
    rw [List.pairwise_map]
    refine hp.imp_of_mem ?_
    intro a b ha hb hr
    have hend := (CSVLoader.csvIterGo_mem pr header file nm (file.length + 1) names 0 0 a ha).2.1
    omega
  · have h := CSVLoader.csvIterGo_sum (μ := μ) pr header file nm (file.length + 1) names 0 0
      (by omega)
    simpa [List.map_map, Function.comp] using h

/-- **C2.** For every partition file, the sequence of RecordLocations produced
by scanning — by the JSON-lines loader as well as by the CSV loader, for any
record decoder, header configuration and preset column names — satisfies
`0 ≤ start ≤ end ≤ file_size`, consecutive locations are non-overlapping and
sorted by `start`, and the total of `end - start` is at most the file
size. -/
theorem claim_C2_record_location_invariants {α μ : Type} (lo : List Nat → α)
    (pr : List Nat → List (List Nat)) (header : Option Nat)
    (names : Option (List (List Nat))) (file : List Nat) (nm : String) :
    LocationsOK ((JSONLinesLoader.iter_file_items (μ := μ) lo file nm).map FileItem.meta)
      file.length ∧
    LocationsOK ((CSVLoader.iter_file_items (μ := μ) pr header names file nm).map FileItem.meta)
      file.length :=
  ⟨locationsOK_jsonl lo file nm, locationsOK_csv pr header names file nm⟩

/-! ## Scanning a file of well-formed newline-terminated records -/

/-- The items the JSON-lines scan produces for a run of newline-terminated
record lines whose first line starts at byte offset `pos`. -/
def expectedItems {α μ : Type} (lo : List Nat → α) (nm : String) :
    Nat → List (List Nat) → List (FileItem α μ)
  | _, [] => []
  | pos, l :: ls =>
    ⟨⟨pos, pos + (strip l).length, nm, []⟩, lo (strip l)⟩
      :: expectedItems lo nm (pos + (l.length + 1)) ls

theorem expectedItems_length {α μ : Type} (lo : List Nat → α) (nm : String) :
    ∀ pos ls, (expectedItems (μ := μ) lo nm pos ls).length = ls.length := by
  intro pos ls
  induction ls generalizing pos with
  | nil => rfl
  | cons l ls ih => simp [expectedItems, ih]

/-- Scanning a file made of non-blank newline-terminated record lines
followed by anything whose first line strips to empty yields exactly one item
per record line and never looks past the blank line. -/
theorem JSONLinesLoader.iterGo_mkFile {α μ : Type} (lo : List Nat → α) (nm : String)
    {suffix : List Nat} (hsuf : strip (takeLine suffix) = []) :
    ∀ fuel (pre : List Nat) (ls : List (List Nat)),
      (∀ l ∈ ls, strip l ≠ [] ∧ 10 ∉ l) →
      (mkFile ls).length + suffix.length < fuel →
      JSONLinesLoader.iterGo (μ := μ) lo (pre ++ (mkFile ls ++ suffix)) nm pre.length fuel
        = expectedItems lo nm pre.length ls := by
  intro fuel
  induction fuel with
  | zero => intro pre ls hls hlen; omega
  | succ fuel ih =>
    intro pre ls hls hlen
    cases ls with
    | nil =>
      have hline : lineAt (pre ++ suffix) pre.length = [] := by
        simp only [lineAt, rawLineAt, List.drop_left, hsuf]
      have h0 : mkFile ([] : List (List Nat)) = [] := rfl
      rw [h0, List.nil_append]
      simp [JSONLinesLoader.iterGo, hline, expectedItems]
    | cons l ls' =>
      obtain ⟨hl_ne, hl_nn⟩ := hls l (List.mem_cons_self l ls')
      have hls' : ∀ x ∈ ls', strip x ≠ [] ∧ 10 ∉ x :=
        fun x hx => hls x (List.mem_cons_of_mem l hx)
      have hfile : pre ++ (mkFile (l :: ls') ++ suffix)
          = pre ++ (l ++ 10 :: (mkFile ls' ++ suffix)) := by
        simp [mkFile, List.flatMap_cons, List.append_assoc]
      have hdrop : (pre ++ (l ++ 10 :: (mkFile ls' ++ suffix))).drop pre.length
          = l ++ 10 :: (mkFile ls' ++ suffix) := List.drop_left pre _
      have hraw : rawLineAt (pre ++ (l ++ 10 :: (mkFile ls' ++ suffix))) pre.length
          = l ++ [10] := by
        rw [rawLineAt, hdrop, takeLine_append_newline hl_nn]
      have hlineAt : lineAt (pre ++ (l ++ 10 :: (mkFile ls' ++ suffix))) pre.length
          = strip l := by
        rw [lineAt, hraw, strip_append_ws (by decide)]
      have hmklen : (mkFile (l :: ls')).length = l.length + 1 + (mkFile ls').length := by
        simp [mkFile, List.flatMap_cons]
        omega
      rw [hfile]
      simp only [JSONLinesLoader.iterGo, hlineAt, hraw, if_neg hl_ne, expectedItems]
      congr 1
      have hassoc : pre ++ (l ++ 10 :: (mkFile ls' ++ suffix))
          = (pre ++ (l ++ [10])) ++ (mkFile ls' ++ suffix) := by
        simp [List.append_assoc]
      have hlen10 : pre.length + (l ++ [10]).length = (pre ++ (l ++ [10])).length := by
        simp
      rw [hassoc, hlen10]
      have htail := ih (pre ++ (l ++ [10])) ls' hls' (by omega)
      rw [htail]
      have : (pre ++ (l ++ [10])).length = pre.length + (l.length + 1) := by simp
      rw [this]

/-- **C10.** Scanning by the JSON-lines loader stops at the first line that is
empty after stripping — end of file and an interior blank line are
indistinguishable: the file truncated at the blank line yields the same items
as the file with arbitrary further content after it, one item per preceding
record line, and nothing after the blank line is ever emitted. -/
theorem claim_C10_scan_stops_at_blank_line {α μ : Type} (lo : List Nat → α)
    (lines : List (List Nat)) (suffix : List Nat) (nm : String)
    (hlines : ∀ l ∈ lines, strip l ≠ [] ∧ 10 ∉ l)
    (hsuffix : strip (takeLine suffix) = []) :
    JSONLinesLoader.iter_file_items (μ := μ) lo (mkFile lines ++ suffix) nm
      = JSONLinesLoader.iter_file_items lo (mkFile lines) nm ∧
    (JSONLinesLoader.iter_file_items (μ := μ) lo (mkFile lines ++ suffix) nm).length
      = lines.length := by
  have h1 : JSONLinesLoader.iter_file_items (μ := μ) lo (mkFile lines ++ suffix) nm
      = expectedItems lo nm 0 lines := by
    have h := JSONLinesLoader.iterGo_mkFile (μ := μ) lo nm hsuffix
      ((mkFile lines ++ suffix).length + 1) [] lines hlines (by simp)
    simpa [JSONLinesLoader.iter_file_items] using h
  have h2 : JSONLinesLoader.iter_file_items (μ := μ) lo (mkFile lines) nm
      = expectedItems lo nm 0 lines := by
    have hsuf0 : strip (takeLine ([] : List Nat)) = [] := by
      rw [takeLine_nil, strip_nil]
    have h := JSONLinesLoader.iterGo_mkFile (μ := μ) lo nm hsuf0
      ((mkFile lines).length + 1) [] lines hlines (by simp)
    simpa [JSONLinesLoader.iter_file_items] using h
  refine ⟨h1.trans h2.symm, ?_⟩
  rw [h1, expectedItems_length]

/-! ## Lemmas about the enrichment pipeline -/

/-- Per-item enrichment stages compose: running a concatenated stage list is
running the first list, then — only if the item survived — the second. -/
theorem FileIndexer.enrich_item_append {α μ : Type} (es₁ es₂ : List (ItemEnricher α μ))
    (item : FileItem α μ) :
    FileIndexer.enrich_item (es₁ ++ es₂) item
      = (FileIndexer.enrich_item es₁ item).bind (FileIndexer.enrich_item es₂) := by
  induction es₁ generalizing item with
  | nil => simp [FileIndexer.enrich_item]
  | cons e es ih =>
    cases he : e item with
    | none => simp [FileIndexer.enrich_item, he]
    | some it => simp [FileIndexer.enrich_item, he, ih]

theorem chunksGo_nil {X : Type} (n fuel : Nat) : chunksGo (X := X) n fuel [] = [] := by
  cases fuel <;> rfl

theorem chunksGo_congr {X : Type} {n : Nat} (hn : 1 ≤ n) :
    ∀ f1 f2 (l : List X), l.length ≤ f1 → l.length ≤ f2 →
      chunksGo n f1 l = chunksGo n f2 l := by
  intro f1
  induction f1 with
  | zero =>
    intro f2 l h1 h2
    have hl : l = [] := List.eq_nil_of_length_eq_zero (by omega)
    subst hl
    rw [chunksGo_nil, chunksGo_nil]
  | succ f ih =>
    intro f2 l h1 h2
    cases l with
    | nil => rw [chunksGo_nil, chunksGo_nil]
    | cons a as =>
      cases f2 with
      | zero => simp at h2
      | succ f2' =>
        simp only [chunksGo]
        congr 1
        have h1' : as.length + 1 ≤ f + 1 := by simpa using h1
        have h2' : as.length + 1 ≤ f2' + 1 := by simpa using h2
        exact ih f2' ((a :: as).drop n)
          (by simp only [List.length_drop, List.length_cons]; omega)
          (by simp only [List.length_drop, List.length_cons]; omega)

theorem chunks_cons {X : Type} {n : Nat} (hn : 1 ≤ n) {l : List X} (hl : l ≠ []) :
    chunks n l = l.take n :: chunks n (l.drop n) := by
  cases l with
  | nil => exact absurd rfl hl
  | cons a as =>
    show chunksGo n (a :: as).length (a :: as) = _
    simp only [List.length_cons, chunksGo]
    congr 1
    exact chunksGo_congr hn as.length ((a :: as).drop n).length ((a :: as).drop n)
      (by simp; omega) le_rfl

theorem chunks_join {X : Type} {n : Nat} (hn : 1 ≤ n) :
    ∀ k (l : List X), l.length ≤ k → (chunks n l).flatMap id = l := by
  intro k
  induction k with
  | zero =>
    intro l h
    have hl : l = [] := List.eq_nil_of_length_eq_zero (by omega)
    subst hl
    rfl
  | succ k ih =>
    intro l h
    by_cases hl : l = []
    · subst hl; rfl
    · rw [chunks_cons hn hl, List.flatMap_cons, id]
      rw [ih (l.drop n) (by simp; omega)]
      exact List.take_append_drop n l

theorem chunks_flatMap_id {X : Type} {n : Nat} (hn : 1 ≤ n) (l : List X) :
    (chunks n l).flatMap id = l :=
  chunks_join hn l.length l le_rfl

theorem mem_of_mem_chunks {X : Type} {n : Nat} (hn : 1 ≤ n) {l : List X} {c : List X}
    {x : X} (hc : c ∈ chunks n l) (hx : x ∈ c) : x ∈ l := by
  have : x ∈ (chunks n l).flatMap id := List.mem_flatMap.mpr ⟨c, hc, hx⟩
  rwa [chunks_flatMap_id hn] at this

/-- The batch-buffer loop of `FileIndexer.__call__`, started with a partially
filled buffer, emits exactly the per-item survivors, grouped into consecutive
chunks of the batch size and pushed through the batched enrichers chunk by
chunk. -/
theorem FileIndexer.callGo_eq_chunks {α μ : Type} (es : List (ItemEnricher α μ))
    (bes : List (BatchedEnricher α μ)) {batch_size : Nat} (hbsz : 1 ≤ batch_size) :
    ∀ (items batch : List (FileItem α μ)),
      batch.length < batch_size →
      FileIndexer.callGo es bes batch_size batch items
        = (chunks batch_size (batch ++ items.filterMap (FileIndexer.enrich_item es))).flatMap
            fun b => FileIndexer.finish_batch (FileIndexer.enrich_batch bes b) := by
  intro items
  induction items with
  | nil =>
    intro batch hb
    by_cases hbe : batch = []
    · subst hbe
      rfl
    · have hbeb : batch.isEmpty = false := by
        cases batch with
        | nil => exact absurd rfl hbe
        | cons a as => rfl
      have htake : batch.take batch_size = batch := List.take_of_length_le (by omega)
      have hdrop : batch.drop batch_size = [] := List.drop_eq_nil_iff.mpr (by omega)
      simp only [FileIndexer.callGo, hbeb, Bool.false_eq_true, if_false,
        List.filterMap_nil, List.append_nil]
      rw [chunks_cons hbsz hbe, htake, hdrop, List.flatMap_cons]
      have hch : chunks batch_size ([] : List (FileItem α μ)) = [] := rfl
      rw [hch, List.flatMap_nil, List.append_nil]
  | cons item rest ih =>
    intro batch hb
    cases he : FileIndexer.enrich_item es item with
    | none =>
      simp only [FileIndexer.callGo, he, List.filterMap_cons]
      exact ih batch hb
    | some it =>
      simp only [FileIndexer.callGo, he, List.filterMap_cons]
      by_cases hflush : batch_size ≤ (batch ++ [it]).length
      · rw [if_pos hflush]
        have hlen : (batch ++ [it]).length = batch_size := by
          simp only [List.length_append, List.length_cons, List.length_nil] at hflush ⊢
          omega
        have h1 := ih [] (by simp only [List.length_nil]; omega)
        rw [h1, List.nil_append]
        have hne : (batch ++ [it]) ++ rest.filterMap (FileIndexer.enrich_item es) ≠ [] := by
          intro hcontra
          have hl := congrArg List.length hcontra
          simp [List.length_append] at hl
        conv_rhs => rw [List.append_cons]
        rw [chunks_cons hbsz hne, List.take_left' hlen, List.drop_left' hlen,
          List.flatMap_cons]
      · rw [if_neg hflush]
        have h1 := ih (batch ++ [it]) (by
          simp only [List.length_append, List.length_cons, List.length_nil] at hflush ⊢
          omega)
        rw [h1, ← List.append_cons]

/-- `FileIndexer.__call__` emits the per-item survivors of the scan, chunked
at the batch size and pushed through the batched enrichers chunk by chunk. -/
theorem FileIndexer.call_eq_chunks {α μ : Type} (loader : Loader α μ)
    (es : List (ItemEnricher α μ)) (bes : List (BatchedEnricher α μ))
    {batch_size : Nat} (hbsz : 1 ≤ batch_size) (file : List Nat) (nm : String) :
    FileIndexer.call loader es bes batch_size file nm
      = (chunks batch_size
          ((loader.iter_file_items file nm).filterMap (FileIndexer.enrich_item es))).flatMap
          fun b => FileIndexer.finish_batch (FileIndexer.enrich_batch bes b) := by
  have h := FileIndexer.callGo_eq_chunks es bes hbsz (loader.iter_file_items file nm) []
    (by simp only [List.length_nil]; omega)
  rw [FileIndexer.call, h, List.nil_append]

/-- When every batched enricher maps each input slot to an output slot
depending on that item alone, the whole batched stage list acts as one
item-wise filter-map. -/
theorem FileIndexer.enrich_batch_elementwise {α μ : Type} :
    ∀ bes : List (BatchedEnricher α μ),
      (∀ e ∈ bes, ∃ f, ∀ b, e b = b.map f) →
      ∃ g : FileItem α μ → Option (FileItem α μ),
        ∀ b, FileIndexer.enrich_batch bes b = b.filterMap g := by
  intro bes
  induction bes with
  | nil =>
    intro _
    refine ⟨some, fun b => ?_⟩
    rw [List.filterMap_some]
    rfl
  | cons e rest ih =>
    intro h
    obtain ⟨f, hf⟩ := h e (List.mem_cons_self e rest)
    obtain ⟨g', hg'⟩ := ih fun x hx => h x (List.mem_cons_of_mem e hx)
    refine ⟨fun x => (f x).bind g', fun batch => ?_⟩
    have hb1 : (e batch).filterMap id = batch.filterMap f := by
      rw [hf, List.filterMap_map]
      rfl
    simp only [FileIndexer.enrich_batch, hb1]
    by_cases hemp : (batch.filterMap f).isEmpty
    · rw [if_pos hemp]
      have hnil : batch.filterMap f = [] := List.isEmpty_iff.mp hemp
      have : batch.filterMap (fun x => (f x).bind g') = [] := by
        rw [List.filterMap_eq_nil_iff]
        intro a ha
        have hfa : f a = none := (List.filterMap_eq_nil_iff.mp hnil) a ha
        rw [hfa]
        rfl
      rw [this]
    · rw [if_neg hemp, hg', List.filterMap_filterMap]

/-- Location-and-record preservation between an input and an output item of
an enrichment stage: only `additional_info` may differ. -/
def PreservesLoc {α μ : Type} (x y : FileItem α μ) : Prop :=
  y.meta.start = x.meta.start ∧ y.meta.end_ = x.meta.end_ ∧
  y.meta.filename = x.meta.filename ∧ y.data = x.data

theorem preservesLoc_refl {α μ : Type} (x : FileItem α μ) : PreservesLoc x x :=
  ⟨rfl, rfl, rfl, rfl⟩

theorem preservesLoc_trans {α μ : Type} {x y z : FileItem α μ}
    (h1 : PreservesLoc x y) (h2 : PreservesLoc y z) : PreservesLoc x z := by
  obtain ⟨a1, b1, c1, d1⟩ := h1
  obtain ⟨a2, b2, c2, d2⟩ := h2
  exact ⟨a2.trans a1, b2.trans b1, c2.trans c1, d2.trans d1⟩

/-- A surviving item of the per-item stages keeps the location and record of
the scanned item it came from, when every stage preserves them. -/
theorem FileIndexer.enrich_item_trace {α μ : Type} :
    ∀ (es : List (ItemEnricher α μ)) (x y : FileItem α μ),
      (∀ e ∈ es, ∀ a b, e a = some b → PreservesLoc a b) →
      FileIndexer.enrich_item es x = some y → PreservesLoc x y := by
  intro es
  induction es with
  | nil =>
    intro x y _ h
    simp only [FileIndexer.enrich_item, Option.some.injEq] at h
    subst h
    exact preservesLoc_refl x
  | cons e rest ih =>
    intro x y hes h
    cases he : e x with
    | none => simp [FileIndexer.enrich_item, he] at h
    | some z =>
      simp only [FileIndexer.enrich_item, he] at h
      exact preservesLoc_trans (hes e (List.mem_cons_self e rest) x z he)
        (ih z y (fun e' he' => hes e' (List.mem_cons_of_mem e he')) h)

/-- A surviving item of the batched stages keeps the location and record of
some item of the incoming batch, when every stage's kept slots do. -/
theorem FileIndexer.enrich_batch_trace {α μ : Type} :
    ∀ (bes : List (BatchedEnricher α μ)) (b : List (FileItem α μ)) (y : FileItem α μ),
      (∀ e ∈ bes, ∀ c z, some z ∈ e c → ∃ x ∈ c, PreservesLoc x z) →
      y ∈ FileIndexer.enrich_batch bes b → ∃ x ∈ b, PreservesLoc x y := by
  intro bes
  induction bes with
  | nil => intro b y _ hy; exact ⟨y, hy, preservesLoc_refl y⟩
  | cons e rest ih =>
    intro b y hbes hy
    simp only [FileIndexer.enrich_batch] at hy
    by_cases hemp : ((e b).filterMap id).isEmpty
    · rw [if_pos hemp] at hy
      simp at hy
    · rw [if_neg hemp] at hy
      obtain ⟨x', hx', hp'⟩ := ih _ y (fun e' he' => hbes e' (List.mem_cons_of_mem e he')) hy
      have hmem : some x' ∈ e b := by
        obtain ⟨o, ho, hid⟩ := List.mem_filterMap.mp hx'
        have ho' : o = some x' := hid
        rwa [ho'] at ho
      obtain ⟨x, hx, hp⟩ := hbes e (List.mem_cons_self e rest) b x' hmem
      exact ⟨x, hx, preservesLoc_trans hp hp'⟩

theorem flatMap_chunks_filterMap_map {X Y Z : Type} {n : Nat} (hn : 1 ≤ n)
    (g : X → Option Y) (h : Y → Z) (l : List X) :
    (chunks n l).flatMap (fun c => (c.filterMap g).map h) = (l.filterMap g).map h := by
  have haux : ∀ cs : List (List X),
      cs.flatMap (fun c => (c.filterMap g).map h) = ((cs.flatMap id).filterMap g).map h := by
    intro cs
    induction cs with
    | nil => rfl
    | cons c cs ih =>
      simp only [List.flatMap_cons, ih, id, List.filterMap_append, List.map_append]
  rw [haux, chunks_flatMap_id hn]

/-- **C5.** Per-item enrichers run in configured order; as soon as one stage
drops an item the remaining per-item stages are not applied (the outcome does
not depend on them) and the result is a drop; `FileIndexer.__call__` feeds
the batch buffer and the batched stages only with the items that survived all
per-item stages, so a dropped item contributes no output row. -/
theorem claim_C5_drop_short_circuits {α μ : Type} (loader : Loader α μ)
    (es₁ : List (ItemEnricher α μ)) (e : ItemEnricher α μ)
    (es₂ es₂' : List (ItemEnricher α μ)) (bes : List (BatchedEnricher α μ))
    (batch_size : Nat) (file : List Nat) (nm : String) (item it' : FileItem α μ)
    (h1 : FileIndexer.enrich_item es₁ item = some it')
    (h2 : e it' = none)
    (hbsz : 1 ≤ batch_size) :
    FileIndexer.enrich_item (es₁ ++ e :: es₂) item = none ∧
    FileIndexer.enrich_item (es₁ ++ e :: es₂) item
      = FileIndexer.enrich_item (es₁ ++ e :: es₂') item ∧
    FileIndexer.call loader (es₁ ++ e :: es₂) bes batch_size file nm
      = (chunks batch_size ((loader.iter_file_items file nm).filterMap
          (FileIndexer.enrich_item (es₁ ++ e :: es₂)))).flatMap
          fun b => FileIndexer.finish_batch (FileIndexer.enrich_batch bes b) := by
  have hdrop : ∀ es₂'' : List (ItemEnricher α μ),
      FileIndexer.enrich_item (es₁ ++ e :: es₂'') item = none := by
    intro es₂''
    rw [FileIndexer.enrich_item_append, h1]
    show FileIndexer.enrich_item (e :: es₂'') it' = none
    simp [FileIndexer.enrich_item, h2]
  exact ⟨hdrop es₂, (hdrop es₂).trans (hdrop es₂').symm,
    FileIndexer.call_eq_chunks loader _ bes hbsz file nm⟩

/-- **C6.** For batched enrichers whose output slot for each item depends on
that item alone, running `FileIndexer` with batch size 1 and with any batch
size `N ≥ 1` yields the same row sequence. -/
theorem claim_C6_batch_size_invariance {α μ : Type} (loader : Loader α μ)
    (es : List (ItemEnricher α μ)) (bes : List (BatchedEnricher α μ)) (N : Nat)
    (file : List Nat) (nm : String)
    (hN : 1 ≤ N)
    (hel : ∀ e ∈ bes, ∃ f, ∀ b, e b = b.map f) :
    FileIndexer.call loader es bes 1 file nm = FileIndexer.call loader es bes N file nm := by
  obtain ⟨g, hg⟩ := FileIndexer.enrich_batch_elementwise bes hel
  have key : ∀ bsz : Nat, 1 ≤ bsz →
      FileIndexer.call loader es bes bsz file nm
        = (((loader.iter_file_items file nm).filterMap
            (FileIndexer.enrich_item es)).filterMap g).map fun it => it.meta.as_dict := by
    intro bsz hbsz
    rw [FileIndexer.call_eq_chunks loader es bes hbsz file nm]
    have hfun : (fun b => FileIndexer.finish_batch (FileIndexer.enrich_batch bes b))
        = fun b : List (FileItem α μ) =>
            (b.filterMap g).map fun it => it.meta.as_dict := by
      funext b
      rw [hg]
      rfl
    rw [hfun, flatMap_chunks_filterMap_map hbsz]
  rw [key 1 le_rfl, key N hN]

/-- **C7.** When no file under the root matches any configured glob pattern,
the directory indexer fails with the no-matching-files error and produces no
rows. -/
theorem claim_C7_empty_match_fails {α μ : Type} (loader : Loader α μ)
    (es : List (ItemEnricher α μ)) (bes : List (BatchedEnricher α μ))
    (batch_size : Nat) (globs : List String) (fs : FileSystem)
    (h : ∀ nm ∈ FileSystem.names fs, ∀ pat ∈ globs, globMatch pat nm = false) :
    DirectoryIndexer.call loader es bes batch_size globs fs
      = .error "No files found matching glob patterns" := by
  have hflat : globs.flatMap (fun pat => fs.names.filter fun nm => globMatch pat nm) = [] := by
    induction globs with
    | nil => rfl
    | cons pat rest ih =>
      rw [List.flatMap_cons]
      have hfil : fs.names.filter (fun nm => globMatch pat nm) = [] := by
        rw [List.filter_eq_nil_iff]
        intro nm hnm
        simp [h nm hnm pat (List.mem_cons_self pat rest)]
      rw [hfil, List.nil_append]
      exact ih fun nm hnm pat' hpat' => h nm hnm pat' (List.mem_cons_of_mem pat hpat')
  have hpaths : DirectoryIndexer.collectPaths globs fs.names = [] := by
    rw [DirectoryIndexer.collectPaths, hflat]
    rfl
  simp [DirectoryIndexer.call, hpaths]

/-- **C9.** Sequential indexing is deterministic: identical configuration and
directory give identical results, and the emitted rows are exactly the
per-file rows concatenated in sorted file order. -/
theorem claim_C9_sequential_order {α μ : Type} (loader : Loader α μ)
    (es : List (ItemEnricher α μ)) (bes : List (BatchedEnricher α μ))
    (batch_size : Nat) (globs : List String) (fs : FileSystem)
    (hne : DirectoryIndexer.collectPaths globs fs.names ≠ []) :
    DirectoryIndexer.call loader es bes batch_size globs fs
      = DirectoryIndexer.call loader es bes batch_size globs fs ∧
    DirectoryIndexer.call loader es bes batch_size globs fs
      = .ok ((DirectoryIndexer.collectPaths globs fs.names).flatMap fun nm =>
          FileIndexer.call loader es bes batch_size (fs.content nm) nm) ∧
    List.Sorted (· ≤ ·) (DirectoryIndexer.collectPaths globs fs.names) := by
  refine ⟨rfl, ?_, List.sorted_insertionSort _ _⟩
  simp only [DirectoryIndexer.call, if_neg hne]

/-- **C8.** For every in-range row ordinal, the random-access reader of
`dextro/torch.py` slices that row's memory map to exactly the bytes
`[start, end)` — same length, same bytes — decodes them via the loader's
`load_item`, and returns the full decoded record with no field
projection. -/
theorem claim_C8_reader_lookup {α μ : Type} (loader : Loader α μ) (index : List (Row μ))
    (mem_maps : String → List Nat) (idx : Nat) (r : Row μ)
    (hidx : index[idx]? = some r)
    (hr : r.start ≤ r.end_ ∧ r.end_ ≤ (mem_maps r.filename).length) :
    IndexedDataset.getitem loader index mem_maps idx
      = some (loader.load_item (pySlice (mem_maps r.filename) r.start r.end_)) ∧
    (pySlice (mem_maps r.filename) r.start r.end_).length = r.end_ - r.start ∧
    (∀ i < r.end_ - r.start,
      (pySlice (mem_maps r.filename) r.start r.end_)[i]?
        = (mem_maps r.filename)[r.start + i]?) := by
  obtain ⟨h1, h2⟩ := hr
  refine ⟨?_, ?_, ?_⟩
  · rw [IndexedDataset.getitem, hidx]
    rfl
  · rw [pySlice, List.length_take, List.length_drop]
    omega
  · intro i hi
    rw [pySlice, List.getElem?_take, if_pos hi, List.getElem?_drop]

/-- **C1.** For a JSON-lines partition whose emitted lines carry no leading
whitespace, and enrichment stages that only annotate (never change location
or record), every emitted row's `[start, end)` byte slice equals the stripped
line the loader decoded during scanning: decoding the slice reproduces the
record the enrichment stages observed, and the slice contains no newline, in
particular not the trailing line delimiter. -/
theorem claim_C1_round_trip {α μ : Type} (lo : List Nat → α)
    (es : List (ItemEnricher α μ)) (bes : List (BatchedEnricher α μ))
    (batch_size : Nat) (file : List Nat) (nm : String)
    (hbsz : 1 ≤ batch_size)
    (hes : ∀ e ∈ es, ∀ a b, e a = some b → PreservesLoc a b)
    (hbes : ∀ e ∈ bes, ∀ c z, some z ∈ e c → ∃ x ∈ c, PreservesLoc x z)
    (hws : ∀ it ∈ JSONLinesLoader.iter_file_items (μ := μ) lo file nm,
      stripLeft (rawLineAt file it.meta.start) = rawLineAt file it.meta.start) :
    ∀ r ∈ FileIndexer.call (JSONLinesLoader lo) es bes batch_size file nm,
      pySlice file r.start r.end_ = lineAt file r.start ∧
      (∃ it ∈ JSONLinesLoader.iter_file_items (μ := μ) lo file nm,
        it.meta.start = r.start ∧ it.meta.end_ = r.end_ ∧ it.meta.filename = r.filename ∧
        lo (pySlice file r.start r.end_) = it.data) ∧
      (10 : Nat) ∉ pySlice file r.start r.end_ := by
  intro r hr
  rw [FileIndexer.call_eq_chunks _ es bes hbsz file nm] at hr
  obtain ⟨chunk, hchunk, hrc⟩ := List.mem_flatMap.mp hr
  obtain ⟨y, hy, hry⟩ := List.mem_map.mp hrc
  obtain ⟨x, hx, hpxy⟩ := FileIndexer.enrich_batch_trace bes chunk y hbes hy
  have hxs : x ∈ (JSONLinesLoader.iter_file_items (μ := μ) lo file nm).filterMap
      (FileIndexer.enrich_item es) := mem_of_mem_chunks hbsz hchunk hx
  obtain ⟨s, hs, hsx⟩ := List.mem_filterMap.mp hxs
  have hpsx : PreservesLoc s x := FileIndexer.enrich_item_trace es s x hes hsx
  have hpsy : PreservesLoc s y := preservesLoc_trans hpsx hpxy
  obtain ⟨hstart, hend, hfn, hdata⟩ := hpsy
  obtain ⟨_, hsend, _, hsdata, _, _⟩ :=
    JSONLinesLoader.iterGo_mem lo file nm (file.length + 1) 0 s hs
  have hrstart : r.start = s.meta.start := by
    rw [← hry, ItemMeta.as_dict, hstart]
  have hrend : r.end_ = s.meta.end_ := by
    rw [← hry, ItemMeta.as_dict, hend]
  have hrfn : r.filename = s.meta.filename := by
    rw [← hry, ItemMeta.as_dict, hfn]
  have hslice : pySlice file r.start r.end_ = lineAt file r.start := by
    rw [hrstart, hrend, hsend, pySlice, Nat.add_sub_cancel_left]
    have hpre1 : lineAt file s.meta.start <+: rawLineAt file s.meta.start := by
      rw [lineAt, strip, hws s hs]
      exact stripRight_isPrefixOf _
    have hpre2 : rawLineAt file s.meta.start <+: file.drop s.meta.start :=
      takeLine_isPrefixOf _
    have hpre := hpre1.trans hpre2
    exact (List.prefix_iff_eq_take.mp hpre).symm
  refine ⟨hslice, ⟨s, hs, hrstart.symm, hrend.symm, hrfn.symm, ?_⟩, ?_⟩
  · rw [hslice, hrstart, hsdata]
  · rw [hslice, hrstart, lineAt, rawLineAt]
    exact ten_not_mem_strip_takeLine _

/-- **C3 counterexample.** With patterns `*.jsonl` and `a.*` over a root
holding the single file `a.jsonl`, both patterns match it and the file list
the directory indexer processes contains `a.jsonl` twice: the list is not
deduplicated, refuting the claim. -/
theorem claim_C3_counterexample :
    DirectoryIndexer.collectPaths ["*.jsonl", "a.*"] ["a.jsonl"]
      = ["a.jsonl", "a.jsonl"] ∧
    ¬ (DirectoryIndexer.collectPaths ["*.jsonl", "a.*"] ["a.jsonl"]).Nodup := by
  have hflat : (["*.jsonl", "a.*"] : List String).flatMap
      (fun pat => (["a.jsonl"] : List String).filter fun nm => globMatch pat nm)
      = ["a.jsonl", "a.jsonl"] := by rfl
  have hsingle : List.insertionSort (fun a b : String => a ≤ b) ["a.jsonl"] = ["a.jsonl"] := rfl
  have hsort : List.insertionSort (fun a b : String => a ≤ b)
      (["a.jsonl", "a.jsonl"] : List String) = ["a.jsonl", "a.jsonl"] := by
    simp only [List.insertionSort, List.orderedInsert]
    rw [if_pos (le_refl "a.jsonl")]
  have h : DirectoryIndexer.collectPaths ["*.jsonl", "a.*"] ["a.jsonl"]
      = ["a.jsonl", "a.jsonl"] := by
    rw [DirectoryIndexer.collectPaths, hflat, hsort]
  refine ⟨h, ?_⟩
  rw [h]
  decide

/-- **C3 amended.** The file list the directory indexer processes is the
glob matches of all patterns concatenated and sorted lexicographically; it is
not deduplicated — a file appears once per matching pattern (times its
multiplicity in the directory listing). -/
theorem claim_C3_amended_sorted_not_deduplicated (globs names : List String) :
    (DirectoryIndexer.collectPaths globs names).Perm
      (globs.flatMap fun pat => names.filter fun nm => globMatch pat nm) ∧
    List.Sorted (· ≤ ·) (DirectoryIndexer.collectPaths globs names) ∧
    ∀ nm : String, (DirectoryIndexer.collectPaths globs names).count nm
      = (globs.countP fun pat => globMatch pat nm) * names.count nm := by
  refine ⟨List.perm_insertionSort _ _, List.sorted_insertionSort _ _, ?_⟩
  intro nm
  rw [DirectoryIndexer.collectPaths,
    (List.perm_insertionSort (fun a b : String => a ≤ b) _).count_eq]
  induction globs with
  | nil => simp
  | cons pat rest ih =>
    rw [List.flatMap_cons, List.count_append, ih, List.countP_cons]
    by_cases hm : globMatch pat nm
    · rw [List.count_filter hm, if_pos hm]
      ring
    · have hz : (names.filter fun x => globMatch pat x).count nm = 0 := by
        rw [List.count_eq_zero]
        intro hmem
        exact hm (List.of_mem_filter hmem)
      rw [hz, if_neg hm]
      ring

/-- **C4 counterexample.** With `max_iter = 0` over a directory holding one
single-record file, `index_dataset` ignores the cap (`if max_iter:` is falsy
at 0) and emits 1 row, not `min(0, 1) = 0` rows: the claim fails at `K = 0`. -/
theorem claim_C4_counterexample :
    index_dataset (JSONLinesLoader (μ := Unit) id) [] [] 1 ["*.jsonl"] (some 0)
        [("a.jsonl", [97, 98, 10])]
      = .ok [⟨0, 2, "a.jsonl", []⟩] ∧ (1 : Nat) ≠ min 0 1 := by
  exact ⟨rfl, by decide⟩

/-- **C4 amended.** For every cap `K ≥ 1`, `index_dataset` returns exactly
the first `min(K, total_available)` rows of the uncapped run; `K = 0` is
treated like `None` (no truncation), not like a zero cap. -/
theorem claim_C4_amended_cap_min {α μ : Type} (loader : Loader α μ)
    (es : List (ItemEnricher α μ)) (bes : List (BatchedEnricher α μ))
    (batch_size : Nat) (globs : List String) (fs : FileSystem)
    (k : Nat) (rows : List (Row μ))
    (hk : 1 ≤ k)
    (hok : DirectoryIndexer.call loader es bes batch_size globs fs = .ok rows) :
    index_dataset loader es bes batch_size globs (some k) fs = .ok (rows.take k) ∧
    (rows.take k).length = min k rows.length ∧
    index_dataset loader es bes batch_size globs none fs = .ok rows ∧
    index_dataset loader es bes batch_size globs (some 0) fs = .ok rows := by
  have hk0 : ¬ (k = 0) := by omega
  refine ⟨?_, ?_, ?_, ?_⟩
  · rw [index_dataset, hok]
    simp [hk0]
  · simp [List.length_take]
  · rw [index_dataset, hok]
  · rw [index_dataset, hok]
    simp

/-! ## Concrete witnesses -/

theorem claim_C1_round_trip_witness :
    pySlice [97, 98, 10, 99, 10] 0 2 = lineAt [97, 98, 10, 99, 10] 0 ∧
    (∃ it ∈ JSONLinesLoader.iter_file_items (μ := Nat) id [97, 98, 10, 99, 10] "f",
      it.meta.start = 0 ∧ it.meta.end_ = 2 ∧ it.meta.filename = "f" ∧
      id (pySlice [97, 98, 10, 99, 10] 0 2) = it.data) ∧
    (10 : Nat) ∉ pySlice [97, 98, 10, 99, 10] 0 2 := by
  have h := claim_C1_round_trip (μ := Nat) id [] [] 1 [97, 98, 10, 99, 10] "f"
    (by decide)
    (fun e he => absurd he (List.not_mem_nil e))
    (fun e he => absurd he (List.not_mem_nil e))
    (by decide)
  exact h ⟨0, 2, "f", []⟩ (by decide)

theorem claim_C4_amended_cap_min_witness :
    index_dataset (JSONLinesLoader (μ := Unit) id) [] [] 1 ["*.jsonl"] (some 1)
        [("a.jsonl", [97, 98, 10, 99, 10])]
      = .ok (([⟨0, 2, "a.jsonl", []⟩, ⟨3, 4, "a.jsonl", []⟩] : List (Row Unit)).take 1) ∧
    (([⟨0, 2, "a.jsonl", []⟩, ⟨3, 4, "a.jsonl", []⟩] : List (Row Unit)).take 1).length
      = min 1 ([⟨0, 2, "a.jsonl", []⟩, ⟨3, 4, "a.jsonl", []⟩] : List (Row Unit)).length ∧
    index_dataset (JSONLinesLoader (μ := Unit) id) [] [] 1 ["*.jsonl"] none
        [("a.jsonl", [97, 98, 10, 99, 10])]
      = .ok [⟨0, 2, "a.jsonl", []⟩, ⟨3, 4, "a.jsonl", []⟩] ∧
    index_dataset (JSONLinesLoader (μ := Unit) id) [] [] 1 ["*.jsonl"] (some 0)
        [("a.jsonl", [97, 98, 10, 99, 10])]
      = .ok [⟨0, 2, "a.jsonl", []⟩, ⟨3, 4, "a.jsonl", []⟩] :=
  claim_C4_amended_cap_min (JSONLinesLoader (μ := Unit) id) [] [] 1 ["*.jsonl"]
    [("a.jsonl", [97, 98, 10, 99, 10])] 1 [⟨0, 2, "a.jsonl", []⟩, ⟨3, 4, "a.jsonl", []⟩]
    (by decide) (by rfl)

theorem claim_C5_drop_short_circuits_witness :
    FileIndexer.enrich_item
        ([] ++ ((fun _ => none) :: [fun x => some x] : List (ItemEnricher (List Nat) Nat)))
        ⟨⟨0, 2, "f", []⟩, [97, 98]⟩ = none ∧
    FileIndexer.enrich_item
        ([] ++ ((fun _ => none) :: [fun x => some x] : List (ItemEnricher (List Nat) Nat)))
        ⟨⟨0, 2, "f", []⟩, [97, 98]⟩
      = FileIndexer.enrich_item
          ([] ++ ((fun _ => none) :: [] : List (ItemEnricher (List Nat) Nat)))
          ⟨⟨0, 2, "f", []⟩, [97, 98]⟩ ∧
    FileIndexer.call (JSONLinesLoader (μ := Nat) id)
        ([] ++ ((fun _ => none) :: [fun x => some x] : List (ItemEnricher (List Nat) Nat)))
        [] 1 [97, 10] "f"
      = (chunks 1 ((JSONLinesLoader.iter_file_items (μ := Nat) id [97, 10] "f").filterMap
          (FileIndexer.enrich_item
            ([] ++ ((fun _ => none) :: [fun x => some x]
              : List (ItemEnricher (List Nat) Nat)))))).flatMap
          fun b => FileIndexer.finish_batch (FileIndexer.enrich_batch [] b) :=
  claim_C5_drop_short_circuits (JSONLinesLoader (μ := Nat) id) []
    (fun _ => none) [fun x => some x] [] [] 1 [97, 10] "f"
    ⟨⟨0, 2, "f", []⟩, [97, 98]⟩ ⟨⟨0, 2, "f", []⟩, [97, 98]⟩
    rfl rfl (by decide)

theorem claim_C6_batch_size_invariance_witness :
    FileIndexer.call (JSONLinesLoader (μ := Nat) id) []
        [fun b => b.map some] 1 [97, 98, 10, 99, 10] "f"
      = FileIndexer.call (JSONLinesLoader (μ := Nat) id) []
          [fun b => b.map some] 3 [97, 98, 10, 99, 10] "f" :=
  claim_C6_batch_size_invariance (JSONLinesLoader (μ := Nat) id) []
    [fun b => b.map some] 3 [97, 98, 10, 99, 10] "f" (by decide)
    (fun e he => ⟨some, fun b => by rw [List.mem_singleton.mp he]⟩)

theorem claim_C7_empty_match_fails_witness :
    DirectoryIndexer.call (JSONLinesLoader (μ := Unit) id) [] [] 1 ["*.csv"]
        [("a.jsonl", [97, 10])]
      = .error "No files found matching glob patterns" :=
  claim_C7_empty_match_fails (JSONLinesLoader (μ := Unit) id) [] [] 1 ["*.csv"]
    [("a.jsonl", [97, 10])] (by decide)

theorem claim_C8_reader_lookup_witness :
    IndexedDataset.getitem (JSONLinesLoader (μ := Nat) id) [⟨0, 2, "a.jsonl", []⟩]
        (fun _ => [97, 98, 10]) 0
      = some (id (pySlice [97, 98, 10] 0 2)) ∧
    (pySlice [97, 98, 10] 0 2).length = 2 - 0 ∧
    (∀ i < 2 - 0, (pySlice [97, 98, 10] 0 2)[i]? = [97, 98, 10][0 + i]?) :=
  claim_C8_reader_lookup (JSONLinesLoader (μ := Nat) id) [⟨0, 2, "a.jsonl", []⟩]
    (fun _ => [97, 98, 10]) 0 ⟨0, 2, "a.jsonl", []⟩ rfl (by decide)

theorem claim_C9_sequential_order_witness :
    DirectoryIndexer.call (JSONLinesLoader (μ := Unit) id) [] [] 1 ["*.jsonl"]
        [("a.jsonl", [97, 10])]
      = DirectoryIndexer.call (JSONLinesLoader (μ := Unit) id) [] [] 1 ["*.jsonl"]
          [("a.jsonl", [97, 10])] ∧
    DirectoryIndexer.call (JSONLinesLoader (μ := Unit) id) [] [] 1 ["*.jsonl"]
        [("a.jsonl", [97, 10])]
      = .ok ((DirectoryIndexer.collectPaths ["*.jsonl"]
          (FileSystem.names [("a.jsonl", [97, 10])])).flatMap fun nm =>
            FileIndexer.call (JSONLinesLoader (μ := Unit) id) [] [] 1
              (FileSystem.content [("a.jsonl", [97, 10])] nm) nm) ∧
    List.Sorted (· ≤ ·) (DirectoryIndexer.collectPaths ["*.jsonl"]
      (FileSystem.names [("a.jsonl", [97, 10])])) :=
  claim_C9_sequential_order (JSONLinesLoader (μ := Unit) id) [] [] 1 ["*.jsonl"]
    [("a.jsonl", [97, 10])]
    (by simp [show DirectoryIndexer.collectPaths ["*.jsonl"]
      (FileSystem.names [("a.jsonl", [97, 10])]) = ["a.jsonl"] from rfl])

theorem claim_C10_scan_stops_at_blank_line_witness :
    JSONLinesLoader.iter_file_items (μ := Unit) id (mkFile [[97], [98]] ++ (10 :: [99, 10])) "f"
      = JSONLinesLoader.iter_file_items id (mkFile [[97], [98]]) "f" ∧
    (JSONLinesLoader.iter_file_items (μ := Unit) id
      (mkFile [[97], [98]] ++ (10 :: [99, 10])) "f").length
      = ([[97], [98]] : List (List Nat)).length :=
  claim_C10_scan_stops_at_blank_line id [[97], [98]] (10 :: [99, 10]) "f"
    (by decide) (by decide)

end Dextro
